import Mathlib

/-!
Verification of the core of `vault.js` (Knowledge Vault CLI): the URL parser
`parseGitUrl`, the repository discoverer `findGitRepos`, the link reconciler
`ensureLink`, and the orchestration loops `cmdPull` / `cmdAdd`.

The JavaScript source is shallowly embedded: strings become `List Char`,
filesystem trees become an explicit inductive `Entry`/`Children` structure,
fallible filesystem primitives return `Option`, and an uncaught JavaScript
exception is an `Except.error`.
-/

set_option autoImplicit false

namespace Vault

/-! ## Characters and path-string helpers -/

/-- Characters matched by the regex metacharacter `.` in a JavaScript regex
without the `s` flag: everything except the four line terminators. -/
def plainChar (c : Char) : Bool :=
  c ≠ '\n' && c ≠ '\r' && c.val ≠ 0x2028 && c.val ≠ 0x2029

/-- The four characters of the literal suffix `.git`. -/
def dotGit : List Char := ['.', 'g', 'i', 't']

/-- The characters of the excluded dependency-cache directory name
`node_modules`. -/
def nodeModules : List Char := ['n', 'o', 'd', 'e', '_', 'm', 'o', 'd', 'u', 'l', 'e', 's']

/-- Models `name.startsWith(".")` from the JavaScript source. -/
def startsWithDot : List Char → Bool
  | '.' :: _ => true
  | _ => false

/-- The filter applied to a directory entry name during the walk:
`!entry.name.startsWith(".") && entry.name !== "node_modules"`. -/
def keepName (n : List Char) : Bool :=
  !startsWithDot n && decide (n ≠ nodeModules)

/-- Models JavaScript `String.prototype.split` with a single-character
separator: `"a/b".split("/") = ["a","b"]`, `"".split("/") = [""]`. -/
def splitOnChar (c : Char) : List Char → List (List Char)
  | [] => [[]]
  | a :: as =>
    match splitOnChar c as with
    | [] => [[]]
    | s :: ss => if a = c then [] :: s :: ss else (a :: s) :: ss

/-- Models `Array.prototype.join("/")`. -/
def joinSlash : List (List Char) → List Char
  | [] => []
  | [s] => s
  | s :: ss => s ++ '/' :: joinSlash ss

/-- Whether the lazy regex fragment `(.+?)(?:\.git)?$` would strip a trailing
`.git`: the string ends in `.git` and stripping leaves the mandatory group
nonempty. -/
def endsGit (s : List Char) : Bool :=
  decide (4 < s.length) && decide (s.drop (s.length - 4) = dotGit)

/-- The effect of `(.+?)(?:\.git)?$` on the path portion: strip one trailing
`.git` unless that would leave the mandatory group empty. -/
def dropGitSuffix (s : List Char) : List Char :=
  if endsGit s then s.take (s.length - 4) else s

/-! ## URL parser (`parseGitUrl`, vault.js lines 149-169) -/

/-- The four characters of the literal prefix `git@` required by the SSH
regex. -/
def gitAtChars : List Char := ['g', 'i', 't', '@']

/-- Models `url.match(/^git@([^:]+):(.+?)(?:\.git)?$/)`, returning the
captured path portion with the optional `.git` suffix already stripped.
The host group `[^:]+` must be nonempty; the path group `.+?` must be
nonempty and may not contain a line terminator. -/
def sshMatch (url : List Char) : Option (List Char) :=
  if gitAtChars.isPrefixOf url then
    let rest := url.drop 4
    match rest.dropWhile (· ≠ ':') with
    | ':' :: p =>
      if rest.takeWhile (· ≠ ':') ≠ [] ∧ p ≠ [] ∧ p.all plainChar then
        some (dropGitSuffix p)
      else none
    | _ => none
  else none

/-- The scheme prefixes recognized by `^https?:\/\//`. -/
def httpsChars : List Char := ['h', 't', 't', 'p', 's', ':', '/', '/']

/-- The seven characters of `http://`. -/
def httpChars : List Char := ['h', 't', 't', 'p', ':', '/', '/']

/-- Models `url.match(/^https?:\/\/([^/]+)\/(.+?)(?:\.git)?$/)`, returning the
captured path portion with the optional `.git` suffix stripped. -/
def httpMatch (url : List Char) : Option (List Char) :=
  let afterScheme : Option (List Char) :=
    if httpsChars.isPrefixOf url then some (url.drop 8)
    else if httpChars.isPrefixOf url then some (url.drop 7)
    else none
  match afterScheme with
  | none => none
  | some rest =>
    match rest.dropWhile (· ≠ '/') with
    | '/' :: p =>
      if rest.takeWhile (· ≠ '/') ≠ [] ∧ p ≠ [] ∧ p.all plainChar then
        some (dropGitSuffix p)
      else none
    | _ => none

/-- Models `parseGitUrl` (vault.js lines 149-169): try the SSH shape, then the
HTTP(S) shape; on failure the JavaScript calls `process.exit(1)`, modelled as
`none`. On success the path portion is split on `/`; the first segment is the
organization, the rest rejoined with `/` is the project path. -/
def parseGitUrl (url : List Char) : Option (List Char × List Char) :=
  let repoPath? :=
    match sshMatch url with
    | some p => some p
    | none => httpMatch url
  match repoPath? with
  | none => none
  | some repoPath =>
    match splitOnChar '/' repoPath with
    | [] => none
    | org :: rest => some (org, joinSlash rest)

/-! ## Filesystem model

A filesystem tree: `Entry.file` is a regular file, `Entry.link` a symbolic
link / junction storing its target path, `Entry.dir` a directory with a flag
recording whether `fs.readdirSync` succeeds on it (`false` models a
permission or I/O error) and an association list of named children.
Paths are lists of name segments, relative to the tree's root.
Links are not followed by the model (none of the modelled code paths
traverses through a link). -/

mutual

inductive Entry where
  | file : Entry
  | link : List (List Char) → Entry
  | dir : Bool → Children → Entry

inductive Children where
  | nil : Children
  | cons : List Char → Entry → Children → Children

end

/-- Look up a direct child by name (first match, like a directory listing). -/
def childLookup (n : List Char) : Children → Option Entry
  | .nil => none
  | .cons m e rest => if m = n then some e else childLookup n rest

/-- The list of child names, in listing order. -/
def childNames : Children → List (List Char)
  | .nil => []
  | .cons m _ rest => m :: childNames rest

/-- Replace the binding for `n` (or append one if absent). -/
def setChild (n : List Char) (e : Entry) : Children → Children
  | .nil => .cons n e .nil
  | .cons m c rest => if m = n then .cons n e rest else .cons m c (setChild n e rest)

/-- Follow a path through the tree structurally. -/
def lookupEntry : Entry → List (List Char) → Option Entry
  | e, [] => some e
  | .dir _ cs, n :: rest =>
    match childLookup n cs with
    | some c => lookupEntry c rest
    | none => none
  | .file, _ :: _ => none
  | .link _, _ :: _ => none

/-- Models `fs.existsSync` on a path under the modelled root. -/
def existsAt (e : Entry) (p : List (List Char)) : Bool :=
  (lookupEntry e p).isSome

/-- Models `Dirent.isDirectory()` (symlinks are not followed). -/
def isDirEntry : Entry → Bool
  | .dir _ _ => true
  | _ => false

/-- Models `fs.mkdirSync(p, { recursive: true })`: create missing directories
along `p`; succeed silently if `p` already is a directory; throw (`none`) if
any component exists as a non-directory. -/
def mkdirRec : Entry → List (List Char) → Option Entry
  | .dir r cs, [] => some (.dir r cs)
  | .file, [] => none
  | .link _, [] => none
  | .dir r cs, n :: rest =>
    match childLookup n cs with
    | some c => (mkdirRec c rest).map fun c' => Entry.dir r (setChild n c' cs)
    | none =>
      (mkdirRec (Entry.dir true Children.nil) rest).map fun c' =>
        Entry.dir r (setChild n c' cs)
  | .file, _ :: _ => none
  | .link _, _ :: _ => none

/-- Models the platform link primitive (`fs.symlinkSync` / `mklink /J`)
acting on the tree: insert a link entry at `p` pointing at `t`; fail
(`none`) if `p` is the root, a component of its parent is missing or not a
directory, or an entry already exists at `p`. -/
def createLink : Entry → List (List Char) → List (List Char) → Option Entry
  | _, [], _ => none
  | .dir r cs, n :: rest, t =>
    match rest with
    | [] =>
      match childLookup n cs with
      | some _ => none
      | none => some (.dir r (setChild n (.link t) cs))
    | _ :: _ =>
      match childLookup n cs with
      | some c => (createLink c rest t).map fun c' => Entry.dir r (setChild n c' cs)
      | none => none
  | .file, _ :: _, _ => none
  | .link _, _ :: _, _ => none

/-! ## Link reconciler (`ensureLink`, vault.js lines 99-115)

The JavaScript checks `fs.existsSync(linkPath)` first, then calls
`fs.mkdirSync(path.dirname(linkPath), { recursive: true })` OUTSIDE the
`try` block, and only wraps the platform link primitive in `try`/`catch`.
`primOk` models environmental failures of the platform primitive
(permissions, unsupported filesystem, race) beyond what the tree structure
itself forces. An `Except.error` is an uncaught JavaScript exception. -/

def ensureLink (primOk : Bool) (e : Entry) (linkPath targetPath : List (List Char)) :
    Except Unit (String × Entry) :=
  if existsAt e linkPath then .ok ("exists", e)
  else
    match mkdirRec e linkPath.dropLast with
    | none => .error ()
    | some e1 =>
      if primOk then
        match createLink e1 linkPath targetPath with
        | some e2 => .ok ("created", e2)
        | none => .ok ("failed", e1)
      else .ok ("failed", e1)

/-! ## Repository discoverer (`findGitRepos`, vault.js lines 121-145) -/

/-- Models `fs.existsSync(path.join(d, ".git"))`: a direct child named
`.git` of any kind. -/
def hasGitChild (cs : Children) : Bool :=
  (childLookup dotGit cs).isSome

mutual

/-- Models the inner `walk(d)`: if `d/.git` exists, record `d` and stop;
otherwise list the directory (a read failure contributes nothing) and
recurse into kept subdirectories. Paths are relative to the walk root. -/
def walk : Entry → List (List (List Char))
  | .file => []
  | .link _ => []
  | .dir r cs =>
    if hasGitChild cs then [[]]
    else if r then walkChildren cs else []

/-- The `for (const entry of entries)` loop body of `walk`. -/
def walkChildren : Children → List (List (List Char))
  | .nil => []
  | .cons n e rest =>
    (if isDirEntry e && keepName n then (walk e).map fun p => n :: p else []) ++
      walkChildren rest

end

/-- Models `findGitRepos(dir)`: `none` is a nonexistent root
(`fs.existsSync(dir)` false), which yields the empty list. -/
def findGitRepos : Option Entry → List (List (List Char))
  | none => []
  | some e => walk e

/-! ## Well-formed trees

Real directory listings never contain two entries with the same name; the
model states this as a recursive Boolean predicate used as a hypothesis for
structural results about the walk. -/

mutual

def wfEntry : Entry → Bool
  | .file => true
  | .link _ => true
  | .dir _ cs => decide (childNames cs).Nodup && wfChildren cs

def wfChildren : Children → Bool
  | .nil => true
  | .cons _ e rest => wfEntry e && wfChildren rest

end

/-- Well-formedness of an optional root. -/
def wfRoot : Option Entry → Bool
  | none => true
  | some e => wfEntry e

/-- The optional `.git` suffix of an identifier: `(?:\.git)?`. -/
def sufGit (g : Bool) : List Char :=
  if g then dotGit else []

/-! ## Pull-all orchestration (`cmdPull`, vault.js lines 173-212)

Only the per-repository loop (lines 195-208) is modelled; discovery and the
initial vault pull feed it. Console output is modelled as a list of
abstract lines; the external `git pull` outcome per repository is an input
(`pullOk`). A repository job carries the relative path (which is also the
link path under the vault root) and the repository's true path. -/

/-- One console line emitted inside the `cmdPull` repository loop. -/
inductive PullLine where
  | repoHeader : List (List Char) → PullLine
  | pullFailed : PullLine
  | linkCreated : PullLine

/-- State threaded through the `cmdPull` repository loop: the vault-rooted
filesystem tree, the console lines emitted so far, and the `created`
counter. -/
structure PullState where
  vaultFs : Entry
  out : List PullLine
  created : Nat

/-- One iteration of the `cmdPull` repository loop (vault.js lines 195-208):
write the repository header, warn if the git pull failed, reconcile the
link, and print a line plus increment the counter only when the outcome is
`created`. An uncaught exception from `ensureLink` aborts the run. -/
def pullRepoStep (primOk : Bool) (st : PullState)
    (relative : List (List Char)) (pullOk : Bool) (repoPath : List (List Char)) :
    Except Unit PullState :=
  let out1 := st.out ++ [PullLine.repoHeader relative]
  let out2 := if pullOk then out1 else out1 ++ [PullLine.pullFailed]
  match ensureLink primOk st.vaultFs relative repoPath with
  | .error u => .error u
  | .ok (status, fs') =>
    if status = "created" then
      .ok ⟨fs', out2 ++ [PullLine.linkCreated], st.created + 1⟩
    else
      .ok ⟨fs', out2, st.created⟩

/-- The `for (const { repoPath, srcDir } of allRepos)` loop of `cmdPull`:
each job is `(relative, pullOk, repoPath)`. -/
def pullLoop (primOk : Bool) (st : PullState) :
    List (List (List Char) × Bool × List (List Char)) → Except Unit PullState
  | [] => .ok st
  | (relative, pullOk, repoPath) :: js =>
    match pullRepoStep primOk st relative pullOk repoPath with
    | .error u => .error u
    | .ok st' => pullLoop primOk st' js

/-! ## Add-one path computation (`cmdAdd`, vault.js lines 214-243) -/

/-- Models `path.join(base, rel)` for the already-normalized relative
path-strings that reach it: appends with a `/` separator, and joining the
empty string is the identity. -/
def joinPath (base rel : List Char) : List Char :=
  if rel = [] then base else base ++ '/' :: rel

/-- The three paths `cmdAdd` computes before going to work. -/
structure AddPlan where
  clonePath : List Char
  vaultLink : List Char
  linkAbsolute : List Char

/-- Models the path computations of `cmdAdd` (vault.js lines 214-243):
parse the identifier (fatal on failure, modelled as `none`), clone
destination `path.join(srcDirs[0], parsed.projectPath)`, vault link
`linkOverride || parsed.projectPath` (JavaScript falsy test, so an empty
override also falls back), link location
`path.join(VAULT_ROOT, vaultLink)`. -/
def cmdAddPlan (cloneBase vaultRoot : List Char) (url : List Char)
    (linkOverride : Option (List Char)) : Option AddPlan :=
  match parseGitUrl url with
  | none => none
  | some (_org, projectPath) =>
    let clonePath := joinPath cloneBase projectPath
    let vaultLink :=
      match linkOverride with
      | some l => if l = [] then projectPath else l
      | none => projectPath
    some ⟨clonePath, vaultLink, joinPath vaultRoot vaultLink⟩

/-- Two discovered paths are structurally unrelated: neither is an initial
segment (ancestor or equal) of the other. -/
def apart (p q : List (List Char)) : Prop :=
  ¬ p <+: q ∧ ¬ q <+: p

/-! ## Parser lemmas -/

theorem takeWhile_ne_append (c : Char) (h p : List Char) (hh : c ∉ h) :
    (h ++ c :: p).takeWhile (· ≠ c) = h := by
  induction h with
  | nil => simp [List.takeWhile_cons]
  | cons a as ih =>
    have ha : a ≠ c := fun e => hh (e ▸ List.mem_cons_self a as)
    have has : c ∉ as := fun m => hh (List.mem_cons_of_mem a m)
    simpa [List.takeWhile_cons, ha] using ih has

theorem dropWhile_ne_append (c : Char) (h p : List Char) (hh : c ∉ h) :
    (h ++ c :: p).dropWhile (· ≠ c) = c :: p := by
  induction h with
  | nil => simp [List.dropWhile_cons]
  | cons a as ih =>
    have ha : a ≠ c := fun e => hh (e ▸ List.mem_cons_self a as)
    have has : c ∉ as := fun m => hh (List.mem_cons_of_mem a m)
    simpa [List.dropWhile_cons, ha] using ih has

theorem splitOnChar_ne_nil (c : Char) (s : List Char) : splitOnChar c s ≠ [] := by
  cases s with
  | nil => simp [splitOnChar]
  | cons a as =>
    simp only [splitOnChar]
    cases splitOnChar c as with
    | nil => simp
    | cons t ts =>
      by_cases h : a = c <;> simp [h]

theorem splitOnChar_not_mem (c : Char) (s : List Char) (h : c ∉ s) :
    splitOnChar c s = [s] := by
  induction s with
  | nil => simp [splitOnChar]
  | cons a as ih =>
    have ha : a ≠ c := fun e => h (e ▸ List.mem_cons_self a as)
    have has : c ∉ as := fun m => h (List.mem_cons_of_mem a m)
    simp [splitOnChar, ih has, ha]

theorem splitOnChar_append (c : Char) (a b : List Char) (h : c ∉ a) :
    splitOnChar c (a ++ c :: b) = a :: splitOnChar c b := by
  induction a with
  | nil =>
    simp only [List.nil_append, splitOnChar]
    cases hs : splitOnChar c b with
    | nil => exact absurd hs (splitOnChar_ne_nil c b)
    | cons t ts => simp
  | cons x xs ih =>
    have hx : x ≠ c := fun e => h (e ▸ List.mem_cons_self x xs)
    have hxs : c ∉ xs := fun m => h (List.mem_cons_of_mem x m)
    simp only [List.cons_append, splitOnChar, List.append_eq]
    rw [ih hxs]
    simp [hx]

theorem joinSlash_splitOnChar (s : List Char) :
    joinSlash (splitOnChar '/' s) = s := by
  induction s with
  | nil => simp [splitOnChar, joinSlash]
  | cons a as ih =>
    simp only [splitOnChar]
    cases hs : splitOnChar '/' as with
    | nil => exact absurd hs (splitOnChar_ne_nil '/' as)
    | cons t ts =>
      rw [hs] at ih
      by_cases ha : a = '/'
      · subst ha
        simpa [joinSlash] using ih
      · simp only [if_neg ha]
        cases ts with
        | nil => simpa [joinSlash] using ih
        | cons u us => simpa [joinSlash] using ih

theorem dropGitSuffix_append (x : List Char) (hx : x ≠ []) :
    dropGitSuffix (x ++ dotGit) = x := by
  have hlen : (x ++ dotGit).length = x.length + 4 := by simp [dotGit]
  have hxpos : 0 < x.length := List.length_pos.mpr hx
  have hend : endsGit (x ++ dotGit) = true := by
    unfold endsGit
    rw [hlen]
    have h1 : 4 < x.length + 4 := by omega
    have h2 : x.length + 4 - 4 = x.length := by omega
    rw [h2]
    simp [h1, List.drop_left]
  unfold dropGitSuffix
  rw [hend, if_pos rfl, hlen]
  have h2 : x.length + 4 - 4 = x.length := by omega
  rw [h2]
  exact List.take_left x dotGit

theorem dropGitSuffix_of_not (x : List Char) (h : endsGit x = false) :
    dropGitSuffix x = x := by
  unfold dropGitSuffix
  simp [h]

theorem isPrefixOf_self_append (a b : List Char) : a.isPrefixOf (a ++ b) = true := by
  induction a with
  | nil => simp [List.isPrefixOf]
  | cons x xs ih => simp [List.isPrefixOf, ih]

theorem sshMatch_eq (host p : List Char) (hne : host ≠ []) (hc : ':' ∉ host)
    (hp : p ≠ []) (hplain : p.all plainChar = true) :
    sshMatch (gitAtChars ++ (host ++ ':' :: p)) = some (dropGitSuffix p) := by
  have hpre : gitAtChars.isPrefixOf (gitAtChars ++ (host ++ ':' :: p)) = true :=
    isPrefixOf_self_append gitAtChars (host ++ ':' :: p)
  have hdrop : (gitAtChars ++ (host ++ ':' :: p)).drop 4 = host ++ ':' :: p := by
    have h4 : gitAtChars.length = 4 := by decide
    rw [← h4, List.drop_left]
  unfold sshMatch
  rw [hpre, if_pos rfl, hdrop]
  dsimp only
  rw [dropWhile_ne_append ':' host p hc]
  rw [takeWhile_ne_append ':' host p hc]
  simp [hne, hp, hplain]

theorem httpMatch_eq (host p : List Char) (hne : host ≠ []) (hs : '/' ∉ host)
    (hp : p ≠ []) (hplain : p.all plainChar = true) :
    httpMatch (httpsChars ++ (host ++ '/' :: p)) = some (dropGitSuffix p) := by
  have hpre : httpsChars.isPrefixOf (httpsChars ++ (host ++ '/' :: p)) = true :=
    isPrefixOf_self_append httpsChars (host ++ '/' :: p)
  have hdrop : (httpsChars ++ (host ++ '/' :: p)).drop 8 = host ++ '/' :: p := by
    have h8 : httpsChars.length = 8 := by decide
    rw [← h8, List.drop_left]
  unfold httpMatch
  rw [hpre, if_pos rfl, hdrop]
  dsimp only
  rw [dropWhile_ne_append '/' host p hs]
  rw [takeWhile_ne_append '/' host p hs]
  simp [hne, hp, hplain]

theorem sshMatch_https_none (rest : List Char) :
    sshMatch (httpsChars ++ rest) = none := rfl

theorem parse_eq_of_ssh (url rp : List Char) (h : sshMatch url = some rp) :
    parseGitUrl url =
      match splitOnChar '/' rp with
      | [] => none
      | org :: rest => some (org, joinSlash rest) := by
  unfold parseGitUrl
  rw [h]

theorem parse_eq_of_http (url rp : List Char) (h1 : sshMatch url = none)
    (h2 : httpMatch url = some rp) :
    parseGitUrl url =
      match splitOnChar '/' rp with
      | [] => none
      | org :: rest => some (org, joinSlash rest) := by
  unfold parseGitUrl
  rw [h1, h2]

theorem sufGit_all_plain (g : Bool) : (sufGit g).all plainChar = true := by
  cases g <;> decide

theorem dropGitSuffix_sufGit (x : List Char) (g : Bool) (hx : x ≠ [])
    (hg : g = false → endsGit x = false) :
    dropGitSuffix (x ++ sufGit g) = x := by
  cases g with
  | true => exact dropGitSuffix_append x hx
  | false =>
    rw [sufGit, if_neg (by simp), List.append_nil]
    exact dropGitSuffix_of_not x (hg rfl)

/-! ## Claims C4, C5, C8: the URL parser -/

/-- C4 (counterexample): the claim says any user-like prefix is accepted in
the SSH shape, but the regex is anchored on the literal `git@`: the
well-shaped SSH identifier `alice@host:org/proj` fails to parse
(`parseGitUrl` aborts, modelled as `none`). -/
theorem parseGitUrl_otherUser_cex :
    parseGitUrl "alice@host:org/proj".data = none := by decide

/-- C4 (amended): only the literal user prefix `git` is accepted. For every
identifier `git@host:path[.git]` whose host is nonempty and colon-free,
whose first path segment (the organization) is nonempty and slash-free, and
whose path contains no regex line terminators (and, when no `.git` suffix is
appended, does not itself end in a strippable `.git`), parsing succeeds with
organization = first path segment and project path = the remaining segments
joined by `/`. -/
theorem parseGitUrl_gitAt_shape (host o p : List Char) (g : Bool)
    (hh : host ≠ []) (hc : ':' ∉ host) (ho : '/' ∉ o)
    (hplain : (o ++ '/' :: p).all plainChar = true)
    (hg : g = false → endsGit (o ++ '/' :: p) = false) :
    parseGitUrl (gitAtChars ++ (host ++ ':' :: ((o ++ '/' :: p) ++ sufGit g))) =
      some (o, p) := by
  have hop : (o ++ '/' :: p) ≠ [] := by simp
  have hall : ((o ++ '/' :: p) ++ sufGit g).all plainChar = true := by
    rw [List.all_append, hplain, sufGit_all_plain, Bool.and_self]
  have hssh := sshMatch_eq host ((o ++ '/' :: p) ++ sufGit g) hh hc
    (by simp [hop]) hall
  rw [parse_eq_of_ssh _ _ hssh, dropGitSuffix_sufGit _ g hop hg,
    splitOnChar_append '/' o p ho]
  dsimp only
  rw [joinSlash_splitOnChar]

/-- C4 (witness for the amended theorem). -/
theorem parseGitUrl_gitAt_shape_witness :
    parseGitUrl (gitAtChars ++ ("host".data ++ ':' ::
        (("org".data ++ '/' :: "proj".data) ++ sufGit true))) =
      some ("org".data, "proj".data) :=
  parseGitUrl_gitAt_shape "host".data "org".data "proj".data true
    (by decide) (by decide) (by decide) (by decide) (by decide)

/-- C5: for every host (nonempty, containing neither `:` nor `/`),
organization and project path (no line terminators), the SSH identifier
`git@host:org/path[.git]` and its HTTPS equivalent
`https://host/org/path[.git]` (same choice of suffix) both parse,
to identical (organization, project-path) pairs. -/
theorem parseGitUrl_ssh_https_agree (host o p : List Char) (g : Bool)
    (hh : host ≠ []) (hc : ':' ∉ host) (hs : '/' ∉ host)
    (hplain : (o ++ '/' :: p).all plainChar = true) :
    ∃ r, parseGitUrl (gitAtChars ++ (host ++ ':' :: ((o ++ '/' :: p) ++ sufGit g))) =
          some r ∧
         parseGitUrl (httpsChars ++ (host ++ '/' :: ((o ++ '/' :: p) ++ sufGit g))) =
          some r := by
  have hop : (o ++ '/' :: p) ≠ [] := by simp
  have hall : ((o ++ '/' :: p) ++ sufGit g).all plainChar = true := by
    rw [List.all_append, hplain, sufGit_all_plain, Bool.and_self]
  have hssh := sshMatch_eq host ((o ++ '/' :: p) ++ sufGit g) hh hc
    (by simp [hop]) hall
  have hhttp := httpMatch_eq host ((o ++ '/' :: p) ++ sufGit g) hh hs
    (by simp [hop]) hall
  rw [parse_eq_of_ssh _ _ hssh,
    parse_eq_of_http _ _ (sshMatch_https_none _) hhttp]
  cases hsp : splitOnChar '/' (dropGitSuffix ((o ++ '/' :: p) ++ sufGit g)) with
  | nil => exact absurd hsp (splitOnChar_ne_nil _ _)
  | cons org rest => exact ⟨(org, joinSlash rest), rfl, rfl⟩

/-- C5 (witness). -/
theorem parseGitUrl_ssh_https_agree_witness :
    ∃ r, parseGitUrl (gitAtChars ++ ("github.com".data ++ ':' ::
            (("org".data ++ '/' :: "proj".data) ++ sufGit true))) = some r ∧
         parseGitUrl (httpsChars ++ ("github.com".data ++ '/' ::
            (("org".data ++ '/' :: "proj".data) ++ sufGit true))) = some r :=
  parseGitUrl_ssh_https_agree "github.com".data "org".data "proj".data true
    (by decide) (by decide) (by decide) (by decide)

/-- C8: an identifier whose path portion is a single segment (no `/`), in
either shape and with or without the `.git` suffix, still parses:
organization = that segment, project path = the empty string. -/
theorem parseGitUrl_single_segment (host o : List Char) (g : Bool)
    (hh : host ≠ []) (hc : ':' ∉ host) (hs : '/' ∉ host) (ho : '/' ∉ o)
    (hoe : o ≠ []) (hplain : o.all plainChar = true)
    (hg : g = false → endsGit o = false) :
    parseGitUrl (gitAtChars ++ (host ++ ':' :: (o ++ sufGit g))) = some (o, []) ∧
    parseGitUrl (httpsChars ++ (host ++ '/' :: (o ++ sufGit g))) = some (o, []) := by
  have hall : (o ++ sufGit g).all plainChar = true := by
    rw [List.all_append, hplain, sufGit_all_plain, Bool.and_self]
  have hssh := sshMatch_eq host (o ++ sufGit g) hh hc (by simp [hoe]) hall
  have hhttp := httpMatch_eq host (o ++ sufGit g) hh hs (by simp [hoe]) hall
  constructor
  · rw [parse_eq_of_ssh _ _ hssh, dropGitSuffix_sufGit _ g hoe hg,
      splitOnChar_not_mem '/' o ho]
    simp [joinSlash]
  · rw [parse_eq_of_http _ _ (sshMatch_https_none _) hhttp,
      dropGitSuffix_sufGit _ g hoe hg, splitOnChar_not_mem '/' o ho]
    simp [joinSlash]

/-! ## Filesystem lemmas for the link reconciler -/

theorem childLookup_setChild (n : List Char) (e : Entry) :
    ∀ cs : Children, childLookup n (setChild n e cs) = some e
  | .nil => by simp [setChild, childLookup]
  | .cons m c rest => by
    by_cases h : m = n
    · simp [setChild, h, childLookup]
    · simp [setChild, h, childLookup, childLookup_setChild n e rest]

theorem lookupEntry_dir_some (r : Bool) (cs : Children) (n : List Char)
    (rest : List (List Char)) (c : Entry) (hc : childLookup n cs = some c) :
    lookupEntry (.dir r cs) (n :: rest) = lookupEntry c rest := by
  simp [lookupEntry, hc]

theorem lookupEntry_dir_none (r : Bool) (cs : Children) (n : List Char)
    (rest : List (List Char)) (hc : childLookup n cs = none) :
    lookupEntry (.dir r cs) (n :: rest) = none := by
  simp [lookupEntry, hc]

theorem mkdirRec_cons_some (r : Bool) (cs : Children) (n : List Char)
    (rest : List (List Char)) (c : Entry) (hc : childLookup n cs = some c) :
    mkdirRec (.dir r cs) (n :: rest) =
      (mkdirRec c rest).map fun c' => Entry.dir r (setChild n c' cs) := by
  simp [mkdirRec, hc]

theorem mkdirRec_cons_none (r : Bool) (cs : Children) (n : List Char)
    (rest : List (List Char)) (hc : childLookup n cs = none) :
    mkdirRec (.dir r cs) (n :: rest) =
      (mkdirRec (Entry.dir true Children.nil) rest).map fun c' =>
        Entry.dir r (setChild n c' cs) := by
  simp [mkdirRec, hc]

theorem createLink_singleton (r : Bool) (cs : Children) (n : List Char)
    (t : List (List Char)) (hc : childLookup n cs = none) :
    createLink (.dir r cs) [n] t = some (.dir r (setChild n (.link t) cs)) := by
  simp [createLink, hc]

theorem createLink_cons_some (r : Bool) (cs : Children) (n : List Char)
    (rest : List (List Char)) (t : List (List Char)) (c : Entry)
    (hr : rest ≠ []) (hc : childLookup n cs = some c) :
    createLink (.dir r cs) (n :: rest) t =
      (createLink c rest t).map fun c' => Entry.dir r (setChild n c' cs) := by
  cases rest with
  | nil => exact absurd rfl hr
  | cons a b => simp [createLink, hc]

theorem lookupEntry_append (e : Entry) (p q : List (List Char)) :
    lookupEntry e (p ++ q) = (lookupEntry e p).bind (fun c => lookupEntry c q) := by
  induction p generalizing e with
  | nil => simp [lookupEntry]
  | cons n rest ih =>
    cases e with
    | file => simp [lookupEntry]
    | link t => simp [lookupEntry]
    | dir r cs =>
      simp only [List.cons_append, lookupEntry]
      cases childLookup n cs with
      | none => simp
      | some c => simpa using ih c

theorem mkdirRec_lookup (p : List (List Char)) :
    ∀ (e e1 : Entry), mkdirRec e p = some e1 →
      ∃ r cs, lookupEntry e1 p = some (.dir r cs) := by
  induction p with
  | nil =>
    intro e e1 h
    cases e with
    | file => simp [mkdirRec] at h
    | link t => simp [mkdirRec] at h
    | dir r cs =>
      simp only [mkdirRec, Option.some_inj] at h
      exact ⟨r, cs, by simp [← h, lookupEntry]⟩
  | cons n rest ih =>
    intro e e1 h
    cases e with
    | file => simp [mkdirRec] at h
    | link t => simp [mkdirRec] at h
    | dir r cs =>
      cases hc : childLookup n cs with
      | some c =>
        rw [mkdirRec_cons_some r cs n rest c hc] at h
        cases hm : mkdirRec c rest with
        | none => rw [hm] at h; simp at h
        | some c' =>
          rw [hm] at h
          simp only [Option.map_some', Option.some_inj] at h
          obtain ⟨r', cs', hl⟩ := ih c c' hm
          exact ⟨r', cs', by
            rw [← h, lookupEntry_dir_some r (setChild n c' cs) n rest c'
              (childLookup_setChild n c' cs), hl]⟩
      | none =>
        rw [mkdirRec_cons_none r cs n rest hc] at h
        cases hm : mkdirRec (Entry.dir true Children.nil) rest with
        | none => rw [hm] at h; simp at h
        | some c' =>
          rw [hm] at h
          simp only [Option.map_some', Option.some_inj] at h
          obtain ⟨r', cs', hl⟩ := ih _ c' hm
          exact ⟨r', cs', by
            rw [← h, lookupEntry_dir_some r (setChild n c' cs) n rest c'
              (childLookup_setChild n c' cs), hl]⟩

theorem mkdirRec_fresh_none (p : List (List Char)) :
    ∀ (c' : Entry) (m : List Char),
      mkdirRec (Entry.dir true Children.nil) p = some c' →
      lookupEntry c' (p ++ [m]) = none := by
  induction p with
  | nil =>
    intro c' m h
    simp only [mkdirRec, Option.some_inj] at h
    rw [← h]
    simp [lookupEntry, childLookup]
  | cons n rest ih =>
    intro c' m h
    rw [mkdirRec_cons_none true Children.nil n rest rfl] at h
    cases hm : mkdirRec (Entry.dir true Children.nil) rest with
    | none => rw [hm] at h; simp at h
    | some c'' =>
      rw [hm] at h
      simp only [Option.map_some', Option.some_inj] at h
      rw [← h, List.cons_append,
        lookupEntry_dir_some true (setChild n c'' Children.nil) n (rest ++ [m]) c''
          (childLookup_setChild n c'' Children.nil)]
      exact ih c'' m hm

theorem mkdirRec_preserves_none (p : List (List Char)) :
    ∀ (e e1 : Entry) (m : List Char), mkdirRec e p = some e1 →
      lookupEntry e (p ++ [m]) = none →
      lookupEntry e1 (p ++ [m]) = none := by
  induction p with
  | nil =>
    intro e e1 m h hn
    cases e with
    | file => simp [mkdirRec] at h
    | link t => simp [mkdirRec] at h
    | dir r cs =>
      simp only [mkdirRec, Option.some_inj] at h
      rw [← h]; exact hn
  | cons n rest ih =>
    intro e e1 m h hn
    cases e with
    | file => simp [mkdirRec] at h
    | link t => simp [mkdirRec] at h
    | dir r cs =>
      cases hc : childLookup n cs with
      | some c =>
        rw [mkdirRec_cons_some r cs n rest c hc] at h
        cases hm : mkdirRec c rest with
        | none => rw [hm] at h; simp at h
        | some c' =>
          rw [hm] at h
          simp only [Option.map_some', Option.some_inj] at h
          rw [List.cons_append, lookupEntry_dir_some r cs n (rest ++ [m]) c hc] at hn
          rw [← h, List.cons_append,
            lookupEntry_dir_some r (setChild n c' cs) n (rest ++ [m]) c'
              (childLookup_setChild n c' cs)]
          exact ih c c' m hm hn
      | none =>
        rw [mkdirRec_cons_none r cs n rest hc] at h
        cases hm : mkdirRec (Entry.dir true Children.nil) rest with
        | none => rw [hm] at h; simp at h
        | some c' =>
          rw [hm] at h
          simp only [Option.map_some', Option.some_inj] at h
          rw [← h, List.cons_append,
            lookupEntry_dir_some r (setChild n c' cs) n (rest ++ [m]) c'
              (childLookup_setChild n c' cs)]
          exact mkdirRec_fresh_none rest c' m hm

theorem createLink_ok (p : List (List Char)) :
    ∀ (e1 : Entry) (r : Bool) (cs : Children) (m : List Char) (tp : List (List Char)),
      lookupEntry e1 p = some (.dir r cs) → childLookup m cs = none →
      ∃ e2, createLink e1 (p ++ [m]) tp = some e2 ∧
        lookupEntry e2 (p ++ [m]) = some (.link tp) := by
  induction p with
  | nil =>
    intro e1 r cs m tp hl hm
    simp only [lookupEntry, Option.some_inj] at hl
    subst hl
    refine ⟨.dir r (setChild m (.link tp) cs), ?_, ?_⟩
    · simpa using createLink_singleton r cs m tp hm
    · rw [List.nil_append,
        lookupEntry_dir_some r (setChild m (.link tp) cs) m [] (.link tp)
          (childLookup_setChild m (.link tp) cs)]
      rfl
  | cons n rest ih =>
    intro e1 r cs m tp hl hm
    cases e1 with
    | file => simp [lookupEntry] at hl
    | link t => simp [lookupEntry] at hl
    | dir r1 cs1 =>
      cases hc : childLookup n cs1 with
      | none => rw [lookupEntry_dir_none r1 cs1 n rest hc] at hl; simp at hl
      | some c =>
        rw [lookupEntry_dir_some r1 cs1 n rest c hc] at hl
        obtain ⟨c2, hcl, hlk⟩ := ih c r cs m tp hl hm
        refine ⟨.dir r1 (setChild n c2 cs1), ?_, ?_⟩
        · rw [List.cons_append,
            createLink_cons_some r1 cs1 n (rest ++ [m]) tp c (by simp) hc, hcl]
          rfl
        · rw [List.cons_append,
            lookupEntry_dir_some r1 (setChild n c2 cs1) n (rest ++ [m]) c2
              (childLookup_setChild n c2 cs1)]
          exact hlk

/-- C8 (witness). -/
theorem parseGitUrl_single_segment_witness :
    parseGitUrl (gitAtChars ++ ("host".data ++ ':' ::
        ("org".data ++ sufGit true))) = some ("org".data, []) ∧
    parseGitUrl (httpsChars ++ ("host".data ++ '/' ::
        ("org".data ++ sufGit true))) = some ("org".data, []) :=
  parseGitUrl_single_segment "host".data "org".data true
    (by decide) (by decide) (by decide) (by decide) (by decide) (by decide)
    (by decide)


/-! ## Claims C1, C3: the link reconciler -/

theorem existsAt_false_iff (e : Entry) (p : List (List Char)) :
    existsAt e p = false ↔ lookupEntry e p = none := by
  unfold existsAt
  cases lookupEntry e p <;> simp

theorem lookupEntry_dir_single (r : Bool) (cs : Children) (m : List Char) :
    lookupEntry (.dir r cs) [m] = childLookup m cs := by
  cases hc : childLookup m cs
  · simp [lookupEntry, hc]
  · simp [lookupEntry, hc]

/-- C1 (counterexample): the claim says any error during creation of the
link or of its parent directories yields the outcome `failed`, but
`fs.mkdirSync` is called outside the `try` block: when a file blocks an
intermediate component of the link path, the parent-directory creation
throws and `ensureLink` aborts with an exception instead of returning
`failed`. -/
theorem ensureLink_mkdir_throw_cex :
    ensureLink true (Entry.dir true (Children.cons ['a'] Entry.file Children.nil))
      [['a'], ['b']] [['t']] = Except.error () := rfl

/-- C1 (amended): `ensureLink` returns one of the three outcomes `exists` /
`created` / `failed` whenever the link path already exists or
parent-directory creation succeeds, and any failure of the platform link
primitive itself is caught and returned as the value `failed`; but an error
while creating the parent directories is not caught and escapes as an
exception. -/
theorem ensureLink_outcomes (primOk : Bool) (e : Entry) (lp tp : List (List Char)) :
    (existsAt e lp = true → ensureLink primOk e lp tp = .ok ("exists", e)) ∧
    (existsAt e lp = false → mkdirRec e lp.dropLast = none →
      ensureLink primOk e lp tp = .error ()) ∧
    (∀ e1, mkdirRec e lp.dropLast = some e1 →
      ∃ st e2, ensureLink primOk e lp tp = .ok (st, e2) ∧
        (st = "exists" ∨ st = "created" ∨ st = "failed")) ∧
    (∀ e1, existsAt e lp = false → mkdirRec e lp.dropLast = some e1 →
      primOk = false → ensureLink primOk e lp tp = .ok ("failed", e1)) := by
  refine ⟨?_, ?_, ?_, ?_⟩
  · intro h
    simp [ensureLink, h]
  · intro h1 h2
    simp [ensureLink, h1, h2]
  · intro e1 hm
    cases hex : existsAt e lp with
    | true => exact ⟨"exists", e, by simp [ensureLink, hex], Or.inl rfl⟩
    | false =>
      cases primOk with
      | false => exact ⟨"failed", e1, by simp [ensureLink, hex, hm], Or.inr (Or.inr rfl)⟩
      | true =>
        cases hcl : createLink e1 lp tp with
        | none =>
          exact ⟨"failed", e1, by simp [ensureLink, hex, hm, hcl], Or.inr (Or.inr rfl)⟩
        | some e2 =>
          exact ⟨"created", e2, by simp [ensureLink, hex, hm, hcl], Or.inr (Or.inl rfl)⟩
  · intro e1 hex hm hp
    subst hp
    simp [ensureLink, hex, hm]

/-- C1 (witness for the amended theorem): on an empty vault root with a
failing link primitive, the outcome is the value `failed`. -/
theorem ensureLink_outcomes_witness :
    ensureLink false (Entry.dir true Children.nil) [['r']] [['t']] =
      .ok ("failed", Entry.dir true Children.nil) :=
  (ensureLink_outcomes false (Entry.dir true Children.nil) [['r']] [['t']]).2.2.2
    (Entry.dir true Children.nil) rfl rfl rfl

/-- C3: when no entry exists at the link path, the parent directories can be
created, and the platform primitive succeeds, reconciling twice in sequence
yields `created` on the first call — after which the entry at the link path
is a link whose stored target is the intended target — and the no-action
outcome `exists` (with the filesystem unchanged) on the second call. -/
theorem ensureLink_twice (e e1 : Entry) (lp tp : List (List Char))
    (hne : lp ≠ []) (hex : existsAt e lp = false)
    (hmk : mkdirRec e lp.dropLast = some e1) :
    ∃ e2, ensureLink true e lp tp = .ok ("created", e2) ∧
      lookupEntry e2 lp = some (.link tp) ∧
      ensureLink true e2 lp tp = .ok ("exists", e2) := by
  obtain ⟨p, m, rfl⟩ : ∃ p m, lp = p ++ [m] :=
    ⟨lp.dropLast, lp.getLast hne, (List.dropLast_append_getLast hne).symm⟩
  have hdl : (p ++ [m]).dropLast = p := by simp
  rw [hdl] at hmk
  obtain ⟨r, cs, hl1⟩ := mkdirRec_lookup p e e1 hmk
  have hnone : lookupEntry e1 (p ++ [m]) = none :=
    mkdirRec_preserves_none p e e1 m hmk (existsAt_false_iff e (p ++ [m]) |>.mp hex)
  have hcm : childLookup m cs = none := by
    rw [lookupEntry_append e1 p [m], hl1] at hnone
    simpa [lookupEntry_dir_single] using hnone
  obtain ⟨e2, hcl, hlk⟩ := createLink_ok p e1 r cs m tp hl1 hcm
  refine ⟨e2, ?_, hlk, ?_⟩
  · simp [ensureLink, hex, hdl, hmk, hcl]
  · have hex2 : existsAt e2 (p ++ [m]) = true := by
      simp [existsAt, hlk]
    simp [ensureLink, hex2]

/-- C3 (witness): an empty vault root, link path `r`, target `t`. -/
theorem ensureLink_twice_witness :
    ∃ e2, ensureLink true (Entry.dir true Children.nil) [['r']] [['t']] =
        .ok ("created", e2) ∧
      lookupEntry e2 [['r']] = some (.link [['t']]) ∧
      ensureLink true e2 [['r']] [['t']] = .ok ("exists", e2) :=
  ensureLink_twice (Entry.dir true Children.nil) (Entry.dir true Children.nil)
    [['r']] [['t']] (by simp) rfl rfl

/-! ## Walk lemmas for the repository discoverer -/

theorem walk_dir_git (r : Bool) (cs : Children) (h : hasGitChild cs = true) :
    walk (.dir r cs) = [[]] := by
  simp [walk, h]

theorem walk_dir_nogit_readable (cs : Children) (h : hasGitChild cs = false) :
    walk (.dir true cs) = walkChildren cs := by
  simp [walk, h]

theorem walk_dir_nogit_unreadable (cs : Children) (h : hasGitChild cs = false) :
    walk (.dir false cs) = [] := by
  simp [walk, h]

theorem walkChildren_cons_eq (n : List Char) (e : Entry) (rest : Children) :
    walkChildren (.cons n e rest) =
      (if isDirEntry e && keepName n then (walk e).map fun p => n :: p else []) ++
        walkChildren rest := by
  simp [walkChildren]

mutual

theorem walk_keep : ∀ (e : Entry), ∀ p ∈ walk e, ∀ s ∈ p, keepName s = true
  | .file => by simp [walk]
  | .link t => by simp [walk]
  | .dir r cs => by
    intro p hp s hs
    by_cases hg : hasGitChild cs = true
    · rw [walk_dir_git r cs hg] at hp
      simp only [List.mem_singleton] at hp
      subst hp
      simp at hs
    · have hg' : hasGitChild cs = false := by simpa using hg
      cases r with
      | false => rw [walk_dir_nogit_unreadable cs hg'] at hp; simp at hp
      | true =>
        rw [walk_dir_nogit_readable cs hg'] at hp
        exact walkChildren_keep cs p hp s hs

theorem walkChildren_keep :
    ∀ (cs : Children), ∀ p ∈ walkChildren cs, ∀ s ∈ p, keepName s = true
  | .nil => by simp [walkChildren]
  | .cons n e rest => by
    intro p hp s hs
    rw [walkChildren_cons_eq] at hp
    rcases List.mem_append.mp hp with h1 | h2
    · by_cases hcond : (isDirEntry e && keepName n) = true
      · rw [if_pos hcond] at h1
        obtain ⟨q, hq, rfl⟩ := List.mem_map.mp h1
        rcases List.mem_cons.mp hs with rfl | hs2
        · have hc2 := hcond
          simp only [Bool.and_eq_true] at hc2
          exact hc2.2
        · exact walk_keep e q hq s hs2
      · rw [if_neg hcond] at h1
        simp at h1
    · exact walkChildren_keep rest p h2 s hs

end

theorem walkChildren_shape : ∀ (cs : Children), ∀ p ∈ walkChildren cs,
    ∃ n t, p = n :: t ∧ n ∈ childNames cs
  | .nil => by simp [walkChildren]
  | .cons n e rest => by
    intro p hp
    rw [walkChildren_cons_eq] at hp
    rcases List.mem_append.mp hp with h1 | h2
    · by_cases hcond : (isDirEntry e && keepName n) = true
      · rw [if_pos hcond] at h1
        obtain ⟨q, hq, rfl⟩ := List.mem_map.mp h1
        exact ⟨n, q, rfl, by simp [childNames]⟩
      · rw [if_neg hcond] at h1
        simp at h1
    · obtain ⟨m, t, hpt, hm⟩ := walkChildren_shape rest p h2
      exact ⟨m, t, hpt, by simp [childNames, hm]⟩

mutual

theorem walk_apart : ∀ (e : Entry), wfEntry e = true → (walk e).Pairwise apart
  | .file => fun _ => by simp [walk]
  | .link t => fun _ => by simp [walk]
  | .dir r cs => fun hwf => by
    have hwf2 : (childNames cs).Nodup ∧ wfChildren cs = true := by
      simpa [wfEntry] using hwf
    by_cases hg : hasGitChild cs = true
    · rw [walk_dir_git r cs hg]
      simp
    · have hg' : hasGitChild cs = false := by simpa using hg
      cases r with
      | false => rw [walk_dir_nogit_unreadable cs hg']; simp
      | true =>
        rw [walk_dir_nogit_readable cs hg']
        exact walkChildren_apart cs hwf2.1 hwf2.2

theorem walkChildren_apart : ∀ (cs : Children), (childNames cs).Nodup →
    wfChildren cs = true → (walkChildren cs).Pairwise apart
  | .nil => fun _ _ => by simp [walkChildren]
  | .cons n e rest => fun hnd hwf => by
    have hwf2 : wfEntry e = true ∧ wfChildren rest = true := by
      simpa [wfChildren] using hwf
    have hnd2 : n ∉ childNames rest ∧ (childNames rest).Nodup := by
      have := hnd
      simp only [childNames, List.nodup_cons] at this
      exact this
    rw [walkChildren_cons_eq, List.pairwise_append]
    refine ⟨?_, walkChildren_apart rest hnd2.2 hwf2.2, ?_⟩
    · by_cases hcond : (isDirEntry e && keepName n) = true
      · rw [if_pos hcond, List.pairwise_map]
        apply (walk_apart e hwf2.1).imp
        intro a b hab
        exact ⟨fun hpre => hab.1 (List.cons_prefix_cons.mp hpre).2,
               fun hpre => hab.2 (List.cons_prefix_cons.mp hpre).2⟩
      · rw [if_neg hcond]
        simp
    · intro a ha b hb
      by_cases hcond : (isDirEntry e && keepName n) = true
      · rw [if_pos hcond] at ha
        obtain ⟨q, hq, rfl⟩ := List.mem_map.mp ha
        obtain ⟨m, t, rfl, hm⟩ := walkChildren_shape rest b hb
        have hne : n ≠ m := fun h => hnd2.1 (h ▸ hm)
        exact ⟨fun hpre => hne (List.cons_prefix_cons.mp hpre).1,
               fun hpre => hne ((List.cons_prefix_cons.mp hpre).1).symm⟩
      · rw [if_neg hcond] at ha
        simp at ha

end

/-! ## Claims C6, C7, C10: the repository discoverer -/

/-- C6: over any well-formed tree (distinct sibling names, as real directory
listings have), discovery returns no duplicates, no two results where one is
a path prefix of the other, and no result passing through a hidden
(`.`-prefixed) or `node_modules` segment — so nothing beneath a found
repository, a hidden directory, or the dependency cache is returned. -/
theorem findGitRepos_structure (o : Option Entry) (hwf : wfRoot o = true) :
    (findGitRepos o).Pairwise apart ∧ (findGitRepos o).Nodup ∧
    ∀ p ∈ findGitRepos o, ∀ s ∈ p, startsWithDot s = false ∧ s ≠ nodeModules := by
  have hpw : (findGitRepos o).Pairwise apart := by
    cases o with
    | none => simp [findGitRepos]
    | some e => exact walk_apart e (by simpa [wfRoot] using hwf)
  refine ⟨hpw, ?_, ?_⟩
  · refine hpw.imp ?_
    intro a b hab he
    exact hab.1 (he ▸ List.prefix_refl a)
  · intro p hp s hs
    have hk : keepName s = true := by
      cases o with
      | none => simp [findGitRepos] at hp
      | some e => exact walk_keep e p hp s hs
    simp only [keepName, Bool.and_eq_true, Bool.not_eq_true',
      decide_eq_true_eq] at hk
    exact hk

/-- C6 (witness): a root with one repository `a` one level down. -/
theorem findGitRepos_structure_witness :
    startsWithDot ['a'] = false ∧ ['a'] ≠ nodeModules :=
  (findGitRepos_structure
      (some (Entry.dir true (Children.cons ['a']
        (Entry.dir true (Children.cons dotGit Entry.file Children.nil))
        Children.nil)))
      (by decide)).2.2
    [['a']] (by decide) ['a'] (by decide)

/-- C7 (counterexample): a directory that cannot be read (its listing
throws) but whose `.git` marker is still visible is not silently skipped:
the existence check runs before the directory read, so the directory itself
is recorded — its subtree contributes one result, not nothing. -/
theorem findGitRepos_unreadable_cex :
    findGitRepos (some (Entry.dir false
        (Children.cons dotGit Entry.file Children.nil))) = [[]] ∧
    ([[]] : List (List (List Char))) ≠ [] := by
  refine ⟨by decide, by decide⟩

/-- C7 (amended): discovery is total over every modelled filesystem state: a
nonexistent root yields the empty set; a directory that cannot be read
contributes nothing from below it — though the directory itself is still
recorded when its `.git` marker is visible, since the marker check precedes
the read — and an unreadable subdirectory does not abort the walk: the
remaining siblings are still processed. -/
theorem findGitRepos_total (cs rest : Children) (n : List Char) :
    findGitRepos none = [] ∧
    (hasGitChild cs = false → walk (Entry.dir false cs) = []) ∧
    (hasGitChild cs = true → walk (Entry.dir false cs) = [[]]) ∧
    walkChildren (Children.cons n (Entry.dir false cs) rest) =
      (if (keepName n && hasGitChild cs) = true then [[n]] else []) ++
        walkChildren rest := by
  refine ⟨rfl, ?_, ?_, ?_⟩
  · intro h
    exact walk_dir_nogit_unreadable cs h
  · intro h
    exact walk_dir_git false cs h
  · rw [walkChildren_cons_eq]
    cases hg : hasGitChild cs with
    | true =>
      rw [walk_dir_git false cs hg]
      by_cases hk : keepName n = true
      · simp [isDirEntry, hk, hg]
      · have hk2 : keepName n = false := by simpa using hk
        simp [isDirEntry, hk2, hg]
    | false =>
      rw [walk_dir_nogit_unreadable cs hg]
      simp [isDirEntry, hg]

/-- C7 (witness): the sibling after an unreadable directory is still
discovered. -/
theorem findGitRepos_total_witness :
    walk (Entry.dir false (Children.cons dotGit Entry.file Children.nil)) = [[]] :=
  (findGitRepos_total (Children.cons dotGit Entry.file Children.nil)
      Children.nil ['a']).2.2.1 rfl

/-- C10: a direct child named `.git` of any kind — a plain file (as git
worktrees and submodules use) just as well as a marker directory — makes
the walk record the directory as a repository root and stop: nothing
beneath it is visited. -/
theorem findGitRepos_marker_kind (r : Bool) (cs : Children)
    (h : childLookup dotGit cs = some Entry.file ∨
         ∃ rb cb, childLookup dotGit cs = some (Entry.dir rb cb)) :
    walk (Entry.dir r cs) = [[]] := by
  have hg : hasGitChild cs = true := by
    rcases h with h | ⟨rb, cb, h⟩ <;> simp [hasGitChild, h]
  exact walk_dir_git r cs hg

/-- C10 (witness): a plain-file `.git` marker stops the walk even though a
nested repository sits below. -/
theorem findGitRepos_marker_kind_witness :
    walk (Entry.dir true (Children.cons dotGit Entry.file
      (Children.cons ['a']
        (Entry.dir true (Children.cons dotGit Entry.file Children.nil))
        Children.nil))) = [[]] :=
  findGitRepos_marker_kind true _ (Or.inl rfl)

/-! ## Claims C2, C9: the orchestrator -/

/-- C2 (counterexample): a pull-all run over a single repository whose link
reconciliation returns the value `failed` emits only the repository header
line for it — no warning line about the link failure appears anywhere in the
output (the loop prints a line only for the `created` outcome) — and the
created counter stays 0. -/
theorem cmdPull_silent_failed_cex :
    ensureLink false (Entry.dir true Children.nil) [['x']] [['y']] =
      .ok ("failed", Entry.dir true Children.nil) ∧
    pullLoop false ⟨Entry.dir true Children.nil, [], 0⟩ [([['x']], true, [['y']])] =
      .ok ⟨Entry.dir true Children.nil, [PullLine.repoHeader [['x']]], 0⟩ :=
  ⟨rfl, rfl⟩

/-- C2 (amended): when link reconciliation returns `failed` during the
pull-all loop, no output line about the link is emitted for that repository
— only the header line, plus the pull warning if the git pull itself failed
— the created counter is unchanged, and the run continues with the
remaining repositories. -/
theorem cmdPull_failed_silent (primOk : Bool) (st : PullState)
    (relative repoPath : List (List Char)) (pullOk : Bool) (e2 : Entry)
    (js : List (List (List Char) × Bool × List (List Char)))
    (h : ensureLink primOk st.vaultFs relative repoPath = .ok ("failed", e2)) :
    pullRepoStep primOk st relative pullOk repoPath =
      .ok ⟨e2, (st.out ++ [PullLine.repoHeader relative]) ++
        (if pullOk then [] else [PullLine.pullFailed]), st.created⟩ ∧
    pullLoop primOk st ((relative, pullOk, repoPath) :: js) =
      pullLoop primOk
        ⟨e2, (st.out ++ [PullLine.repoHeader relative]) ++
          (if pullOk then [] else [PullLine.pullFailed]), st.created⟩ js := by
  have hstep : pullRepoStep primOk st relative pullOk repoPath =
      .ok ⟨e2, (st.out ++ [PullLine.repoHeader relative]) ++
        (if pullOk then [] else [PullLine.pullFailed]), st.created⟩ := by
    unfold pullRepoStep
    rw [h]
    cases pullOk <;> simp
  refine ⟨hstep, ?_⟩
  conv_lhs => rw [pullLoop]
  rw [hstep]

/-- C2 (witness for the amended theorem). -/
theorem cmdPull_failed_silent_witness :
    pullRepoStep false ⟨Entry.dir true Children.nil, [], 0⟩ [['x']] true [['y']] =
      .ok ⟨Entry.dir true Children.nil,
        (([] : List PullLine) ++ [PullLine.repoHeader [['x']]]) ++
          (if true then [] else [PullLine.pullFailed]), 0⟩ ∧
    pullLoop false ⟨Entry.dir true Children.nil, [], 0⟩
        [([['x']], true, [['y']])] =
      pullLoop false
        ⟨Entry.dir true Children.nil,
          (([] : List PullLine) ++ [PullLine.repoHeader [['x']]]) ++
            (if true then [] else [PullLine.pullFailed]), 0⟩ [] :=
  cmdPull_failed_silent false ⟨Entry.dir true Children.nil, [], 0⟩
    [['x']] [['y']] true (Entry.dir true Children.nil) [] rfl

/-- C9: for every successfully parsed SSH identifier `git@host:org/p[.git]`,
`cmdAdd` computes the clone destination as the first configured source root
joined with the project path `p`, and places the link at the vault root
joined with the explicit nonempty `--link` override when one is given,
otherwise with the project path. -/
theorem cmdAddPlan_paths (cloneBase vaultRoot host o p : List Char) (g : Bool)
    (hh : host ≠ []) (hc : ':' ∉ host) (ho : '/' ∉ o)
    (hplain : (o ++ '/' :: p).all plainChar = true)
    (hg : g = false → endsGit (o ++ '/' :: p) = false) :
    (cmdAddPlan cloneBase vaultRoot
        (gitAtChars ++ (host ++ ':' :: ((o ++ '/' :: p) ++ sufGit g))) none =
      some ⟨joinPath cloneBase p, p, joinPath vaultRoot p⟩) ∧
    (∀ ov, ov ≠ [] → cmdAddPlan cloneBase vaultRoot
        (gitAtChars ++ (host ++ ':' :: ((o ++ '/' :: p) ++ sufGit g))) (some ov) =
      some ⟨joinPath cloneBase p, ov, joinPath vaultRoot ov⟩) := by
  have hop : (o ++ '/' :: p) ≠ [] := by simp
  have hall : ((o ++ '/' :: p) ++ sufGit g).all plainChar = true := by
    rw [List.all_append, hplain, sufGit_all_plain, Bool.and_self]
  have hssh := sshMatch_eq host ((o ++ '/' :: p) ++ sufGit g) hh hc
    (by simp [hop]) hall
  have hparse : parseGitUrl
      (gitAtChars ++ (host ++ ':' :: ((o ++ '/' :: p) ++ sufGit g))) =
      some (o, p) := by
    rw [parse_eq_of_ssh _ _ hssh, dropGitSuffix_sufGit _ g hop hg,
      splitOnChar_append '/' o p ho]
    dsimp only
    rw [joinSlash_splitOnChar]
  constructor
  · unfold cmdAddPlan
    rw [hparse]
  · intro ov hov
    unfold cmdAddPlan
    rw [hparse]
    simp [hov]

/-- C9 (witness): scenario B of the spec — `git@github.com:org/group/project.git`
clones into `firstSourceRoot/group/project`; with the explicit override
`docs` the link goes to `vaultRoot/docs`. -/
theorem cmdAddPlan_paths_witness :
    cmdAddPlan "/src".data "/vault".data
        (gitAtChars ++ ("github.com".data ++ ':' ::
          (("org".data ++ '/' :: "group/project".data) ++ sufGit true)))
        (some "docs".data) =
      some ⟨joinPath "/src".data "group/project".data, "docs".data,
            joinPath "/vault".data "docs".data⟩ :=
  (cmdAddPlan_paths "/src".data "/vault".data "github.com".data "org".data
      "group/project".data true (by decide) (by decide) (by decide)
      (by decide) (by decide)).2
    "docs".data (by decide)

end Vault
